import Mathlib

/-!
Verification of the version-resolution core of `find_versions.py`
(a Nuke script-editor tool that locates "version zero" and "latest
version" renders for selected shots).

The embedding models:
  * the string helpers (`os.path.splitext`, `os.path.basename`,
    `pathlib` `suffix`/`stem`),
  * glob matching as used by `pathlib.Path.glob` on the literal
    patterns built by the script (only `*` and `?` wildcards occur),
  * the constant regular expressions of the script, translated to
    executable string functions,
  * the configurable shot-identity pattern as a small regex AST with
    an executable backtracking matcher and a declarative semantics,
  * directories as a path plus an optional listing (absent listing
    models a non-existent directory; list order models the OS
    enumeration order seen by `Path.glob`),
  * the orchestration loop (lines 154-193 of the source) including
    the cancellation poll, as a recursive function that also emits an
    event trace (poll / lookup events) so temporal claims can be
    stated.

The host-application node graph, YAML configuration loading and all
UI calls are external collaborators and are not modelled beyond the
points where the resolution logic touches them.
-/

/-- Lowercase ASCII letter test, the character class `[a-z]` used by
the script's regular expressions. -/
def isLowerAZ (c : Char) : Bool := 'a' ≤ c && c ≤ 'z'

/-- Index of the last occurrence of a character in a character list,
mirroring Python's `str.rfind` (absent when the character does not
occur). -/
def lastIdxOf (c : Char) (cs : List Char) : Option Nat :=
  ((cs.enum.filter (fun p => p.2 == c)).map (fun p => p.1)).getLast?

/-- The root part of `os.path.splitext`: split at the last dot,
unless every character of the final path component before that dot is
itself a dot (CPython `genericpath._splitext`). -/
def splitextRoot (p : String) : String :=
  let cs := p.data
  let start := match lastIdxOf '/' cs with
    | some i => i + 1
    | none => 0
  match lastIdxOf '.' cs with
  | none => p
  | some dotIdx =>
    if start ≤ dotIdx then
      if ((cs.drop start).take (dotIdx - start)).any (fun c => c != '.') then
        String.mk (cs.take dotIdx)
      else p
    else p

/-- Python `os.path.basename`: everything after the last slash. -/
def pyBasename (p : String) : String :=
  match lastIdxOf '/' p.data with
  | none => p
  | some i => String.mk (p.data.drop (i + 1))

/-- The `suffix` property of `pathlib.PurePath` applied to a bare
filename: the extension including the dot, empty when the last dot is
leading or trailing. -/
def pathSuffix (name : String) : String :=
  match lastIdxOf '.' name.data with
  | none => ""
  | some i =>
    if 0 < i && i + 1 < name.data.length then String.mk (name.data.drop i) else ""

/-- The `stem` property of `pathlib.PurePath` applied to a bare
filename: the name with `pathSuffix` removed. -/
def pathStem (name : String) : String :=
  match lastIdxOf '.' name.data with
  | none => name
  | some i =>
    if 0 < i && i + 1 < name.data.length then String.mk (name.data.take i) else name

/-- Numeric value of a decimal digit string, as Python `int` on the
digit group captured by `(\d+)`. -/
def digitsVal (ds : List Char) : Nat :=
  ds.foldl (fun n c => n * 10 + (c.toNat - '0'.toNat)) 0

/-- The trailing version token of a stem, per the script's anchored
regular expressions `_([a-z])(\d+)_vfx$` and `_([a-z]\d+)_vfx$`: the
stem must end in `_vfx`, preceded by a non-empty digit run, preceded
by one lowercase letter, preceded by an underscore.  Returns the
letter and the digit run.  (`re.search` with a `$` anchor admits
exactly this decomposition: the digit group is the maximal trailing
digit run of the body, since any shorter run would put a digit where
the pattern requires the letter.) -/
def vfxTokenOf (stem : String) : Option (Char × List Char) :=
  match stem.data.reverse with
  | 'x' :: 'f' :: 'v' :: '_' :: rbody =>
    let rds := rbody.takeWhile Char.isDigit
    if rds = [] then none
    else
      match rbody.dropWhile Char.isDigit with
      | c :: '_' :: _ => if isLowerAZ c then some (c, rds.reverse) else none
      | _ => none
  | _ => none

/-- `int(m.group(2))` for the latest-version regex
`_([a-z])(\d+)_vfx$` applied (`re.search`) to a file stem. -/
def versionSearch (stem : String) : Option Nat :=
  (vfxTokenOf stem).map (fun t => digitsVal t.2)

/-- Leftmost `_(v\d+)` substring of a stem (greedy digit run), the
fallback of `_extract_version_label`. -/
def findVSub : List Char → Option (List Char)
  | [] => none
  | '_' :: rest =>
    match rest with
    | 'v' :: c :: r2 =>
      if c.isDigit then some ('v' :: c :: r2.takeWhile Char.isDigit) else findVSub rest
    | _ => findVSub rest
  | _ :: rest => findVSub rest

/-- `_extract_version_label` of the source: trailing
`_([a-z]\d+)_vfx$` token of the stem, else the `_(v\d+)` fallback,
else the empty label. -/
def _extract_version_label (filename : String) : String :=
  let stem := splitextRoot filename
  match vfxTokenOf stem with
  | some (c, ds) => String.mk (c :: ds)
  | none =>
    match findVSub stem.data with
    | some l => String.mk l
    | none => ""

/-- `_shot_base` of the source: `re.sub(r"[a-z]$", "", shot_name)`,
stripping one trailing lowercase letter when present. -/
def _shot_base (s : String) : String :=
  match s.data.getLast? with
  | some c => if isLowerAZ c then String.mk s.data.dropLast else s
  | none => s

/-- `_build_vfx_path` of the source: `{root}/{seq}/{base}/{sub}`
where `seq` is the part of the shot base before the first
underscore. -/
def _build_vfx_path (shot_name shot_tree_root version_subfolder : String) : String :=
  let base := _shot_base shot_name
  let seq := (base.splitOn "_").headD ""
  shot_tree_root ++ "/" ++ seq ++ "/" ++ base ++ "/" ++ version_subfolder

/-- Fuel-driven glob matcher for the patterns the script feeds to
`pathlib.Path.glob` (literals plus `*` and `?`; `fnmatch` semantics:
`*` matches any run of characters, `?` exactly one).  Every recursive
call shrinks `pat.length + s.length`, so the wrapper's fuel is always
sufficient. -/
def globMatchAux : Nat → List Char → List Char → Bool
  | 0, _, _ => false
  | _ + 1, [], s => s.isEmpty
  | fuel + 1, pc :: ps, s =>
    if pc = '*' then
      globMatchAux fuel ps s ||
        (match s with
         | [] => false
         | _ :: cs => globMatchAux fuel (pc :: ps) cs)
    else
      match s with
      | [] => false
      | c :: cs => (pc = '?' || pc = c) && globMatchAux fuel ps cs

/-- Glob match of a filename against a pattern. -/
def globMatch (pat s : String) : Bool :=
  globMatchAux (pat.data.length + s.data.length + 1) pat.data s.data

/-- A directory as the resolver sees it: its path and, when it
exists, its listing in OS enumeration order (the order `Path.glob`
yields entries). -/
structure Dir where
  path : String
  listing : Option (List String)

/-- The comprehension `[f for f in vfx_dir.glob(pat) if f.suffix ==
file_ext]` of the source, over a directory listing. -/
def globFilter (pat : String) (ext : String) (files : List String) : List String :=
  files.filter (fun f => globMatch pat f && pathSuffix f == ext)

/-- The two version-zero glob patterns of `_find_version_zero`, in
the order the source tries them. -/
def vzPatterns (base ext : String) : List String :=
  [base ++ "_*_?0000_vfx" ++ ext, base ++ "_?0000_vfx" ++ ext]

/-- `_find_version_zero` of the source: absent for a missing
directory; otherwise the first extension-filtered glob match of the
first pattern that has any, as a full path. -/
def _find_version_zero (shot_name : String) (vfx_dir : Dir) (file_ext : String) :
    Option String :=
  match vfx_dir.listing with
  | none => none
  | some files =>
    (((vzPatterns (_shot_base shot_name) file_ext).filterMap
        (fun pat => (globFilter pat file_ext files).head?)).head?).map
      (fun f => vfx_dir.path ++ "/" ++ f)

/-- The exclusion test of `_find_latest_version`:
`exclude_filename and f.name == exclude_filename` (a falsy — absent
or empty — exclusion never drops anything). -/
def excludedBy (exclude_filename : Option String) (f : String) : Bool :=
  match exclude_filename with
  | none => false
  | some e => !e.isEmpty && f == e

/-- The `(int(m.group(2)), str(f))` pairs collected by
`_find_latest_version` from the glob-filtered candidates, dropping
excluded filenames and candidates whose stem fails the strict version
regex. -/
def latestVersions (shot_name dpath file_ext : String)
    (exclude_filename : Option String) (files : List String) : List (Nat × String) :=
  (globFilter (shot_name ++ "_*_?*_vfx" ++ file_ext) file_ext files).filterMap
    (fun f =>
      if excludedBy exclude_filename f then none
      else (versionSearch (pathStem f)).map (fun n => (n, dpath ++ "/" ++ f)))

/-- Stable insertion for the descending sort: a later element goes
before an earlier one only when its key is strictly greater, which is
the behavior of Python's stable `list.sort(key=..., reverse=True)`. -/
def insertDesc (x : Nat × String) : List (Nat × String) → List (Nat × String)
  | [] => [x]
  | y :: ys => if y.1 ≤ x.1 then x :: y :: ys else y :: insertDesc x ys

/-- Stable descending sort by the numeric version. -/
def sortDescBy (l : List (Nat × String)) : List (Nat × String) :=
  l.foldr insertDesc []

/-- `_find_latest_version` of the source: absent for a missing
directory, for an empty glob result, or when no candidate survives
exclusion and the strict token parse; otherwise the path of the
highest-numbered surviving candidate (first in enumeration order on
ties). -/
def _find_latest_version (shot_name : String) (vfx_dir : Dir) (file_ext : String)
    (exclude_filename : Option String) : Option String :=
  match vfx_dir.listing with
  | none => none
  | some files =>
    if (globFilter (shot_name ++ "_*_?*_vfx" ++ file_ext) file_ext files).isEmpty then
      none
    else
      let versions := latestVersions shot_name vfx_dir.path file_ext exclude_filename files
      if versions.isEmpty then none
      else (sortDescBy versions).head?.map (fun v => v.2)

/-! ### Concrete directories from spec section 8 -/

/-- The section-8 example directory: three renders of the exact shot
identity `SEQ_1140a` with three different vendor letters. -/
def dirE8 : Dir :=
  ⟨"/shots/SEQ/SEQ_1140/_vfx",
   some ["SEQ_1140a_comp_u0003_vfx.mov", "SEQ_1140a_comp_w0012_vfx.mov",
         "SEQ_1140a_comp_i0007_vfx.mov"]⟩

/-- The section-8 version-zero directory: two version-zero renders
named after the shot base `SEQ_1140` (no disambiguation letter). -/
def dirV0 : Dir :=
  ⟨"/shots/SEQ/SEQ_1140/_vfx",
   some ["SEQ_1140_comp_u0000_vfx.mov", "SEQ_1140_comp_w0000_vfx.mov"]⟩

/-- A shot identity per the data model: a sequence code, an
underscore, a non-empty decimal shot number, and an optional single
trailing lowercase disambiguation letter. -/
def IsShotIdentity (s : String) : Prop :=
  ∃ (seq num tail : List Char),
    s.data = seq ++ '_' :: (num ++ tail) ∧ num ≠ [] ∧
    (∀ c ∈ num, c.isDigit = true) ∧
    (tail = [] ∨ ∃ c, isLowerAZ c = true ∧ tail = [c])

/-! ### The configurable shot-identity pattern

The `shot_regex` configuration value is a regular expression with one
capture group, applied with `re.match` (anchored at the start of the
stem, matching a prefix).  It is modelled as a small AST covering the
constructs such patterns use, with an executable backtracking matcher
whose result order is the leftmost-greedy (Python) exploration order,
and a declarative match semantics to state correctness against.  The
matcher is fuel-driven; `pyFuel` is always sufficient fuel (proved by
`rmatch_complete`). -/

/-- Regular-expression AST for the configured shot-identity pattern:
empty string, literal character, character class, alternation (tried
left first), concatenation, greedy Kleene star, and the (single)
capture group. -/
inductive Reg where
  | eps : Reg
  | chr : Char → Reg
  | cls : (Char → Bool) → Reg
  | alt : Reg → Reg → Reg
  | cat : Reg → Reg → Reg
  | star : Reg → Reg
  | group : Reg → Reg

/-- Size measure of a pattern, used for the matcher's fuel bound. -/
def Reg.size : Reg → Nat
  | .eps => 1
  | .chr _ => 1
  | .cls _ => 1
  | .alt r1 r2 => r1.size + r2.size + 1
  | .cat r1 r2 => r1.size + r2.size + 1
  | .star r => r.size + 1
  | .group r => r.size + 1

/-- One matcher result: the consumed characters, the capture of the
group (absent when the group did not participate), and the remaining
characters. -/
abbrev MRes := List Char × Option (List Char) × List Char

/-- Backtracking matcher: all ways the pattern can match a prefix of
the input, in Python's leftmost-greedy priority order (alternation
left-first, star body-first, later captures override earlier ones).
Star iterations that consume nothing are pruned, which only removes
redundant parses.  Every recursive call either shrinks the pattern or
shrinks the input, so `pyFuel` fuel never runs out. -/
def mat : Nat → Reg → List Char → List MRes
  | 0, _, _ => []
  | fuel + 1, r, s =>
    match r with
    | .eps => [([], none, s)]
    | .chr c =>
      match s with
      | [] => []
      | x :: xs => if x = c then [([x], none, xs)] else []
    | .cls p =>
      match s with
      | [] => []
      | x :: xs => if p x then [([x], none, xs)] else []
    | .alt r1 r2 => mat fuel r1 s ++ mat fuel r2 s
    | .cat r1 r2 =>
      (mat fuel r1 s).flatMap fun a =>
        (mat fuel r2 a.2.2).map fun b => (a.1 ++ b.1, b.2.1 <|> a.2.1, b.2.2)
    | .group rg => (mat fuel rg s).map fun a => (a.1, some a.1, a.2.2)
    | .star rb =>
      ((mat fuel rb s).flatMap fun a =>
        if a.1 = [] then []
        else
          (mat fuel (.star rb) a.2.2).map fun b =>
            (a.1 ++ b.1, b.2.1 <|> a.2.1, b.2.2)) ++ [([], none, s)]

/-- Declarative match semantics: `RMatch r cs g` holds when the
pattern `r` matches exactly the characters `cs`, with `g` the capture
of the group (later captures overriding earlier ones, as in Python
when a group matches repeatedly). -/
inductive RMatch : Reg → List Char → Option (List Char) → Prop where
  | eps : RMatch .eps [] none
  | chr (c : Char) : RMatch (.chr c) [c] none
  | cls (p : Char → Bool) (c : Char) : p c = true → RMatch (.cls p) [c] none
  | altL {r1 r2 : Reg} {s : List Char} {g : Option (List Char)} :
      RMatch r1 s g → RMatch (.alt r1 r2) s g
  | altR {r1 r2 : Reg} {s : List Char} {g : Option (List Char)} :
      RMatch r2 s g → RMatch (.alt r1 r2) s g
  | cat {r1 r2 : Reg} {s1 s2 : List Char} {g1 g2 : Option (List Char)} :
      RMatch r1 s1 g1 → RMatch r2 s2 g2 → RMatch (.cat r1 r2) (s1 ++ s2) (g2 <|> g1)
  | starNil {r : Reg} : RMatch (.star r) [] none
  | starCons {r : Reg} {s1 s2 : List Char} {g1 g2 : Option (List Char)} :
      RMatch r s1 g1 → RMatch (.star r) s2 g2 →
      RMatch (.star r) (s1 ++ s2) (g2 <|> g1)
  | group {r : Reg} {s : List Char} {g : Option (List Char)} :
      RMatch r s g → RMatch (.group r) s (some s)

/-- Sufficient fuel for the matcher on a given pattern and input. -/
def pyFuel (r : Reg) (s : List Char) : Nat := (s.length + 1) * (r.size + 1)

/-- Python `re.match(shot_regex, stem)` for the modelled subset: all
prefix matches in priority order; the head, when present, is the
match object, and its capture component is `m.group(1)`. -/
def reMatch (r : Reg) (s : String) : List MRes := mat (pyFuel r s.data) r s.data

/-- `_extract_shot_name` of the source: strip the extension, apply
the configured pattern anchored at the start of the stem, and return
`m.group(1) if m else None` (also absent when the match succeeded but
group 1 did not participate, since `m.group(1)` is then `None`). -/
def _extract_shot_name (filename : String) (shot_regex : Reg) : Option String :=
  match reMatch shot_regex (splitextRoot filename) with
  | [] => none
  | (_, g, _) :: _ => g.map String.mk

/-! ### The orchestrator (source lines 149-193) -/

/-- A selected Read node as the resolution loop sees it: only the
value of its `file` knob matters. -/
structure RNode where
  file : String

/-- Entry construction (source lines 154-161): for each selected
node, parse the shot name and version label from the basename of its
file; keep the entry only when the shot name is truthy (present and
non-empty). -/
def buildEntries (selected : List RNode) (shot_regex : Reg) :
    List (String × String × RNode) :=
  selected.filterMap fun node =>
    let filename := pyBasename node.file
    let shot_name := _extract_shot_name filename shot_regex
    let ver_label := _extract_version_label filename
    match shot_name with
    | some sn => if sn.isEmpty then none else some (sn, ver_label, node)
    | none => none

/-- Observable events of the resolution loop: a cancellation poll
(with the collaborator's answer) and the two filesystem lookups per
entry.  Progress messages are external display calls and are not
recorded. -/
inductive Ev where
  | poll : Bool → Ev
  | lookupV0 : String → Ev
  | lookupLatest : String → Ev
deriving DecidableEq

/-- The resolution loop (source lines 174-191): one `isCancelled`
poll at the top of each iteration (answering `true` ends the run with
the cancelled flag set), then the version-zero lookup and the
latest-version lookup for the entry, the latter excluding the entry's
own filename.  The filesystem is a map from directory path to
optional listing; `cancel k` is the collaborator's answer to the
`k`-th poll.  Returns the two result lists, the cancelled flag, and
the event trace. -/
def mainLoop (fs : String → Option (List String))
    (shot_tree_root version_subfolder file_ext : String) (cancel : Nat → Bool) :
    List (String × String × RNode) → Nat →
      List (Option String) × List (Option String) × Bool × List Ev
  | [], _ => ([], [], false, [])
  | (shot_name, _ver_label, node) :: rest, k =>
    if cancel k then ([], [], true, [Ev.poll true])
    else
      let vfx_path := _build_vfx_path shot_name shot_tree_root version_subfolder
      let vfx_dir : Dir := ⟨vfx_path, fs vfx_path⟩
      let selected_filename := pyBasename node.file
      let v0 := _find_version_zero shot_name vfx_dir file_ext
      let latest :=
        _find_latest_version shot_name vfx_dir file_ext (some selected_filename)
      let res := mainLoop fs shot_tree_root version_subfolder file_ext cancel rest (k + 1)
      (v0 :: res.1, latest :: res.2.1, res.2.2.1,
        Ev.poll false :: Ev.lookupV0 shot_name :: Ev.lookupLatest shot_name :: res.2.2.2)

/-- Event classifier: is this one of the two filesystem lookups? -/
def isLookup : Ev → Bool
  | .poll _ => false
  | .lookupV0 _ => true
  | .lookupLatest _ => true

/-- Event classifier: is this a cancellation poll? -/
def isPoll : Ev → Bool
  | .poll _ => true
  | .lookupV0 _ => false
  | .lookupLatest _ => false

/-- The property claimed of the loop: every lookup event is
immediately preceded by a cancellation poll (the first argument is
the previous event, absent at the start of the trace). -/
def pollBeforeEachLookup : Option Ev → List Ev → Bool
  | _, [] => true
  | prev, e :: rest =>
    (!isLookup e ||
      (match prev with
       | some q => isPoll q
       | none => false)) &&
      pollBeforeEachLookup (some e) rest

/-- Shape of the traces the loop actually produces: a sequence of
blocks `poll false, lookupV0 s, lookupLatest s` — exactly one poll
per entry, before the version-zero lookup, with no poll between the
two lookups — optionally terminated by a single `poll true` that ends
the run immediately. -/
def wellFormedTrace : List Ev → Bool
  | [] => true
  | Ev.poll true :: rest => rest.isEmpty
  | Ev.poll false :: Ev.lookupV0 s :: Ev.lookupLatest s2 :: rest =>
    s == s2 && wellFormedTrace rest
  | _ => false

/-! ### Sorting lemmas -/

theorem mem_insertDesc {x a : Nat × String} {l : List (Nat × String)} :
    x ∈ insertDesc a l ↔ x = a ∨ x ∈ l := by
  induction l with
  | nil => simp [insertDesc]
  | cons y ys ih =>
    simp only [insertDesc]
    split
    · simp
    · simp only [List.mem_cons, ih]
      tauto

theorem mem_sortDescBy {x : Nat × String} {l : List (Nat × String)} :
    x ∈ sortDescBy l ↔ x ∈ l := by
  induction l with
  | nil => simp [sortDescBy]
  | cons a l ih =>
    simp only [sortDescBy, List.foldr] at *
    rw [mem_insertDesc, ih, List.mem_cons]

theorem sortDescBy_eq_nil {l : List (Nat × String)} :
    sortDescBy l = [] ↔ l = [] := by
  constructor
  · intro h
    cases l with
    | nil => rfl
    | cons a t =>
      exfalso
      have : a ∈ sortDescBy (a :: t) := mem_sortDescBy.mpr (by simp)
      rw [h] at this
      simp at this
  · intro h; rw [h]; rfl

theorem sortDescBy_head_max :
    ∀ (l : List (Nat × String)) (h : Nat × String) (t : List (Nat × String)),
      sortDescBy l = h :: t → h ∈ l ∧ ∀ x ∈ l, x.1 ≤ h.1 := by
  intro l
  induction l with
  | nil => intro h t hst; simp [sortDescBy] at hst
  | cons a l ih =>
    intro h t hst
    have hfold : sortDescBy (a :: l) = insertDesc a (sortDescBy l) := rfl
    rw [hfold] at hst
    cases hsl : sortDescBy l with
    | nil =>
      have hl : l = [] := sortDescBy_eq_nil.mp hsl
      rw [hsl] at hst
      simp only [insertDesc] at hst
      cases hst
      subst hl
      exact ⟨by simp, by simp⟩
    | cons b t' =>
      rw [hsl] at hst
      obtain ⟨hbmem, hbmax⟩ := ih b t' hsl
      simp only [insertDesc] at hst
      split at hst
      · -- b.1 ≤ a.1 : the new element a goes first
        rename_i hba
        cases hst
        refine ⟨by simp, ?_⟩
        intro x hx
        rcases List.mem_cons.mp hx with hxa | hxl
        · subst hxa; exact le_refl _
        · exact le_trans (hbmax x hxl) hba
      · -- a.1 < b.1 : the previous head b stays first
        rename_i hba
        cases hst
        refine ⟨List.mem_cons_of_mem _ hbmem, ?_⟩
        intro x hx
        rcases List.mem_cons.mp hx with hxa | hxl
        · subst hxa; exact le_of_not_le hba
        · exact hbmax x hxl

/-! ### Generic facts about the latest-version pipeline -/

theorem latestVersions_subset_files
    {shot dpath ext : String} {excl : Option String} {files : List String}
    {n : Nat} {p : String} (h : (n, p) ∈ latestVersions shot dpath ext excl files) :
    ∃ f ∈ files, p = dpath ++ "/" ++ f ∧ excludedBy excl f = false ∧
      versionSearch (pathStem f) = some n := by
  unfold latestVersions at h
  obtain ⟨f, hf, hval⟩ := List.mem_filterMap.mp h
  have hfin : f ∈ files := List.mem_of_mem_filter hf
  by_cases hex : excludedBy excl f = true
  · rw [if_pos hex] at hval; cases hval
  · rw [if_neg hex] at hval
    cases hvs : versionSearch (pathStem f) with
    | none => rw [hvs] at hval; cases hval
    | some m =>
      rw [hvs] at hval
      have hval' : (m, dpath ++ "/" ++ f) = (n, p) := by simpa using hval
      obtain ⟨rfl, rfl⟩ := Prod.mk.injEq .. ▸ hval'
      exact ⟨f, hfin, rfl, by simpa using hex, hvs⟩

/-- Unfolding equation for `_find_latest_version` on an existing
directory. -/
theorem find_latest_some_eq (shot dpath ext : String) (excl : Option String)
    (files : List String) :
    _find_latest_version shot ⟨dpath, some files⟩ ext excl =
      (if (globFilter (shot ++ "_*_?*_vfx" ++ ext) ext files).isEmpty then none
       else if (latestVersions shot dpath ext excl files).isEmpty then none
       else (sortDescBy (latestVersions shot dpath ext excl files)).head?.map
         (fun v => v.2)) := rfl

theorem find_latest_eq_head_of_sorted
    {shot dpath ext : String} {excl : Option String} {files : List String}
    (hne : latestVersions shot dpath ext excl files ≠ []) :
    ∃ n p, _find_latest_version shot ⟨dpath, some files⟩ ext excl = some p ∧
      (n, p) ∈ latestVersions shot dpath ext excl files ∧
      ∀ x ∈ latestVersions shot dpath ext excl files, x.1 ≤ n := by
  have hglob : globFilter (shot ++ "_*_?*_vfx" ++ ext) ext files ≠ [] := by
    intro hg
    apply hne
    unfold latestVersions
    rw [hg]
    rfl
  have hsne : sortDescBy (latestVersions shot dpath ext excl files) ≠ [] := by
    intro hs
    exact hne (sortDescBy_eq_nil.mp hs)
  obtain ⟨h, t, hht⟩ := List.exists_cons_of_ne_nil hsne
  obtain ⟨hmem, hmax⟩ := sortDescBy_head_max _ h t hht
  refine ⟨h.1, h.2, ?_, by simpa using hmem, by simpa using hmax⟩
  rw [find_latest_some_eq,
    if_neg (by simpa [List.isEmpty_iff] using hglob),
    if_neg (by simpa [List.isEmpty_iff] using hne), hht]
  rfl

theorem mem_of_head?_eq {α : Type} {l : List α} {a : α} (h : l.head? = some a) :
    a ∈ l := by
  cases l with
  | nil => cases h
  | cons x xs =>
    simp only [List.head?_cons, Option.some.injEq] at h
    rw [← h]
    exact List.mem_cons_self x xs

/-- C1: for surviving candidates carrying a vendor-letter-plus-digits
token, `_find_latest_version` returns the path with the numerically
highest digit group regardless of vendor letter; with no survivor it
returns absent; on the section-8 directory it returns the `w0012`
path. -/
theorem claim_C1 :
    (∀ (shot dpath ext : String) (excl : Option String) (files : List String),
        latestVersions shot dpath ext excl files ≠ [] →
        ∃ n p, _find_latest_version shot ⟨dpath, some files⟩ ext excl = some p ∧
          (n, p) ∈ latestVersions shot dpath ext excl files ∧
          ∀ x ∈ latestVersions shot dpath ext excl files, x.1 ≤ n) ∧
    (∀ (shot dpath ext : String) (excl : Option String) (files : List String),
        latestVersions shot dpath ext excl files = [] →
        _find_latest_version shot ⟨dpath, some files⟩ ext excl = none) ∧
    _find_latest_version "SEQ_1140a" dirE8 ".mov" none =
      some "/shots/SEQ/SEQ_1140/_vfx/SEQ_1140a_comp_w0012_vfx.mov" := by
  refine ⟨fun shot dpath ext excl files hne => find_latest_eq_head_of_sorted hne,
    ?_, by decide⟩
  intro shot dpath ext excl files h
  rw [find_latest_some_eq]
  by_cases hg : (globFilter (shot ++ "_*_?*_vfx" ++ ext) ext files).isEmpty = true
  · rw [if_pos hg]
  · rw [if_neg hg, if_pos (by rw [h]; rfl)]

/-- Witness for C1 at the section-8 directory. -/
theorem claim_C1_witness :
    latestVersions "SEQ_1140a" "/shots/SEQ/SEQ_1140/_vfx" ".mov" none
        ["SEQ_1140a_comp_u0003_vfx.mov", "SEQ_1140a_comp_w0012_vfx.mov",
         "SEQ_1140a_comp_i0007_vfx.mov"] ≠ [] ∧
    ∃ n p,
      _find_latest_version "SEQ_1140a"
          ⟨"/shots/SEQ/SEQ_1140/_vfx",
           some ["SEQ_1140a_comp_u0003_vfx.mov", "SEQ_1140a_comp_w0012_vfx.mov",
                 "SEQ_1140a_comp_i0007_vfx.mov"]⟩ ".mov" none = some p ∧
      (n, p) ∈ latestVersions "SEQ_1140a" "/shots/SEQ/SEQ_1140/_vfx" ".mov" none
          ["SEQ_1140a_comp_u0003_vfx.mov", "SEQ_1140a_comp_w0012_vfx.mov",
           "SEQ_1140a_comp_i0007_vfx.mov"] ∧
      ∀ x ∈ latestVersions "SEQ_1140a" "/shots/SEQ/SEQ_1140/_vfx" ".mov" none
          ["SEQ_1140a_comp_u0003_vfx.mov", "SEQ_1140a_comp_w0012_vfx.mov",
           "SEQ_1140a_comp_i0007_vfx.mov"], x.1 ≤ n :=
  ⟨by decide, claim_C1.1 "SEQ_1140a" "/shots/SEQ/SEQ_1140/_vfx" ".mov" none
      ["SEQ_1140a_comp_u0003_vfx.mov", "SEQ_1140a_comp_w0012_vfx.mov",
       "SEQ_1140a_comp_i0007_vfx.mov"] (by decide)⟩

/-- C2: the result filename of `_find_latest_version` never equals
the excluded filename, and on the section-8 directory excluding
`w0012` the result is the `i0007` path. -/
theorem claim_C2 :
    (∀ (shot dpath ext e : String) (files : List String) (p : String),
        _find_latest_version shot ⟨dpath, some files⟩ ext (some e) = some p →
        ∃ f ∈ files, p = dpath ++ "/" ++ f ∧ f ≠ e) ∧
    _find_latest_version "SEQ_1140a" dirE8 ".mov"
        (some "SEQ_1140a_comp_w0012_vfx.mov") =
      some "/shots/SEQ/SEQ_1140/_vfx/SEQ_1140a_comp_i0007_vfx.mov" := by
  refine ⟨?_, by decide⟩
  intro shot dpath ext e files p hres
  rw [find_latest_some_eq] at hres
  by_cases hg : (globFilter (shot ++ "_*_?*_vfx" ++ ext) ext files).isEmpty = true
  · rw [if_pos hg] at hres; cases hres
  rw [if_neg hg] at hres
  by_cases hv : (latestVersions shot dpath ext (some e) files).isEmpty = true
  · rw [if_pos hv] at hres; cases hres
  rw [if_neg hv] at hres
  cases hh : (sortDescBy (latestVersions shot dpath ext (some e) files)).head? with
  | none => rw [hh] at hres; cases hres
  | some v =>
    rw [hh] at hres
    have hp : v.2 = p := by simpa using hres
    have hvmem : v ∈ latestVersions shot dpath ext (some e) files :=
      mem_sortDescBy.mp (mem_of_head?_eq hh)
    obtain ⟨n', p'⟩ := v
    obtain ⟨f, hfin, hpf, hex, hvs⟩ := latestVersions_subset_files hvmem
    refine ⟨f, hfin, by rw [← hp, hpf], ?_⟩
    simp only [excludedBy, Bool.and_eq_false_iff] at hex
    rcases hex with he | hfe
    · -- the exclusion string is empty, but a parsed candidate is never empty
      intro hfeq
      have hee : e = "" := (String.isEmpty_iff e).mp (by simpa using he)
      rw [hfeq, hee] at hvs
      have hnone : versionSearch (pathStem "") = none := rfl
      rw [hnone] at hvs
      cases hvs
    · intro hfeq
      rw [hfeq] at hfe
      simp at hfe

/-- Witness for C2 at the section-8 directory. -/
theorem claim_C2_witness :
    ∃ f ∈ ["SEQ_1140a_comp_u0003_vfx.mov", "SEQ_1140a_comp_w0012_vfx.mov",
           "SEQ_1140a_comp_i0007_vfx.mov"],
      "/shots/SEQ/SEQ_1140/_vfx/SEQ_1140a_comp_i0007_vfx.mov" =
        "/shots/SEQ/SEQ_1140/_vfx" ++ "/" ++ f ∧ f ≠ "SEQ_1140a_comp_w0012_vfx.mov" :=
  claim_C2.1 "SEQ_1140a" "/shots/SEQ/SEQ_1140/_vfx" ".mov"
    "SEQ_1140a_comp_w0012_vfx.mov"
    ["SEQ_1140a_comp_u0003_vfx.mov", "SEQ_1140a_comp_w0012_vfx.mov",
     "SEQ_1140a_comp_i0007_vfx.mov"]
    "/shots/SEQ/SEQ_1140/_vfx/SEQ_1140a_comp_i0007_vfx.mov" (by decide)

/-- C10: a version-zero candidate (digit group `0000`, numeric value
0) is ranked like any other; when it is the only surviving candidate
it is returned as the latest version. -/
theorem claim_C10 :
    (∀ (shot dpath ext : String) (excl : Option String) (files : List String)
        (p : String),
        latestVersions shot dpath ext excl files = [(0, p)] →
        _find_latest_version shot ⟨dpath, some files⟩ ext excl = some p) ∧
    _find_latest_version "SEQ_1140a" ⟨"/d", some ["SEQ_1140a_comp_u0000_vfx.mov"]⟩
        ".mov" (some "SEQ_1140a_comp_w0012_vfx.mov") =
      some "/d/SEQ_1140a_comp_u0000_vfx.mov" := by
  refine ⟨?_, by decide⟩
  intro shot dpath ext excl files p h
  have hg : (globFilter (shot ++ "_*_?*_vfx" ++ ext) ext files).isEmpty ≠ true := by
    intro hgt
    have hge : globFilter (shot ++ "_*_?*_vfx" ++ ext) ext files = [] :=
      List.isEmpty_iff.mp hgt
    unfold latestVersions at h
    rw [hge] at h
    cases h
  rw [find_latest_some_eq, if_neg hg, h]
  rfl

/-- Witness for C10: a directory whose only candidate is the
version-zero file. -/
theorem claim_C10_witness :
    latestVersions "SEQ_1140a" "/d" ".mov" (some "SEQ_1140a_comp_w0012_vfx.mov")
        ["SEQ_1140a_comp_u0000_vfx.mov"] = [(0, "/d/SEQ_1140a_comp_u0000_vfx.mov")] ∧
    _find_latest_version "SEQ_1140a" ⟨"/d", some ["SEQ_1140a_comp_u0000_vfx.mov"]⟩
        ".mov" (some "SEQ_1140a_comp_w0012_vfx.mov") =
      some "/d/SEQ_1140a_comp_u0000_vfx.mov" :=
  ⟨by decide, claim_C10.1 "SEQ_1140a" "/d" ".mov" (some "SEQ_1140a_comp_w0012_vfx.mov")
      ["SEQ_1140a_comp_u0000_vfx.mov"] "/d/SEQ_1140a_comp_u0000_vfx.mov" (by decide)⟩

/-- C6: both lookups return absent immediately on a non-existent
directory (modelled by an absent listing), for every shot identity,
extension, exclusion and directory path. -/
theorem claim_C6 : ∀ (shot ext dpath : String) (excl : Option String),
    _find_version_zero shot ⟨dpath, none⟩ ext = none ∧
    _find_latest_version shot ⟨dpath, none⟩ ext excl = none :=
  fun _ _ _ _ => ⟨rfl, rfl⟩

/-- Unfolding equation for `_find_version_zero` on an existing
directory. -/
theorem find_vz_some_eq (shot dpath ext : String) (files : List String) :
    _find_version_zero shot ⟨dpath, some files⟩ ext =
      (((vzPatterns (_shot_base shot) ext).filterMap
          (fun pat => (globFilter pat ext files).head?)).head?).map
        (fun f => dpath ++ "/" ++ f) := rfl

/-- If the first (extra-middle-segment) version-zero pattern has a
match, its first match is returned. -/
theorem vz_first_pattern_hit (shot dpath ext : String) (files : List String)
    (f : String)
    (h : (globFilter (_shot_base shot ++ "_*_?0000_vfx" ++ ext) ext files).head? =
      some f) :
    _find_version_zero shot ⟨dpath, some files⟩ ext = some (dpath ++ "/" ++ f) := by
  rw [find_vz_some_eq]
  simp only [vzPatterns, List.filterMap_cons, h]
  rfl

/-- If the first pattern has no match, the result is determined by
the second (vendor-only) pattern alone. -/
theorem vz_first_pattern_miss (shot dpath ext : String) (files : List String)
    (h : (globFilter (_shot_base shot ++ "_*_?0000_vfx" ++ ext) ext files).head? =
      none) :
    _find_version_zero shot ⟨dpath, some files⟩ ext =
      (globFilter (_shot_base shot ++ "_?0000_vfx" ++ ext) ext files).head?.map
        (fun f => dpath ++ "/" ++ f) := by
  rw [find_vz_some_eq]
  simp only [vzPatterns, List.filterMap_cons, h]
  cases h2 : (globFilter (_shot_base shot ++ "_?0000_vfx" ++ ext) ext files).head? <;>
    simp [h2]

/-- C9: `_find_version_zero` gives the extra-middle-segment shape
strict priority — whenever any file matches it, a match of that shape
is returned, and the vendor-only shape determines the result only
when the first shape has no match at all. -/
theorem claim_C9 :
    (∀ (shot dpath ext : String) (files : List String) (f : String),
        f ∈ globFilter (_shot_base shot ++ "_*_?0000_vfx" ++ ext) ext files →
        ∃ g ∈ globFilter (_shot_base shot ++ "_*_?0000_vfx" ++ ext) ext files,
          _find_version_zero shot ⟨dpath, some files⟩ ext =
            some (dpath ++ "/" ++ g)) ∧
    (∀ (shot dpath ext : String) (files : List String),
        (globFilter (_shot_base shot ++ "_*_?0000_vfx" ++ ext) ext files) = [] →
        _find_version_zero shot ⟨dpath, some files⟩ ext =
          (globFilter (_shot_base shot ++ "_?0000_vfx" ++ ext) ext files).head?.map
            (fun f => dpath ++ "/" ++ f)) := by
  constructor
  · intro shot dpath ext files f hf
    cases hh : (globFilter (_shot_base shot ++ "_*_?0000_vfx" ++ ext) ext files).head?
      with
    | none =>
      exfalso
      have : globFilter (_shot_base shot ++ "_*_?0000_vfx" ++ ext) ext files = [] :=
        List.head?_eq_none_iff.mp hh
      rw [this] at hf
      cases hf
    | some g =>
      exact ⟨g, mem_of_head?_eq hh, vz_first_pattern_hit shot dpath ext files g hh⟩
  · intro shot dpath ext files h
    exact vz_first_pattern_miss shot dpath ext files (by rw [h]; rfl)

/-- Witness for C9: a directory containing one file of each shape;
the first-shape file wins. -/
theorem claim_C9_witness :
    "SEQ_1140_comp_u0000_vfx.mov" ∈
      globFilter (_shot_base "SEQ_1140a" ++ "_*_?0000_vfx" ++ ".mov") ".mov"
        ["SEQ_1140_u0000_vfx.mov", "SEQ_1140_comp_u0000_vfx.mov"] ∧
    ∃ g ∈ globFilter (_shot_base "SEQ_1140a" ++ "_*_?0000_vfx" ++ ".mov") ".mov"
        ["SEQ_1140_u0000_vfx.mov", "SEQ_1140_comp_u0000_vfx.mov"],
      _find_version_zero "SEQ_1140a"
          ⟨"/d", some ["SEQ_1140_u0000_vfx.mov", "SEQ_1140_comp_u0000_vfx.mov"]⟩
          ".mov" = some ("/d" ++ "/" ++ g) :=
  ⟨by decide, claim_C9.1 "SEQ_1140a" "/d" ".mov"
      ["SEQ_1140_u0000_vfx.mov", "SEQ_1140_comp_u0000_vfx.mov"]
      "SEQ_1140_comp_u0000_vfx.mov" (by decide)⟩

/-- C3: `_find_version_zero` consults only the shot base — two
identities with the same base resolve identically — and on the
section-8 base-named directory the lookup for `SEQ_1140a` is not
absent: it returns one of the two version-zero files. -/
theorem claim_C3 :
    (∀ (s1 s2 ext : String) (d : Dir), _shot_base s1 = _shot_base s2 →
        _find_version_zero s1 d ext = _find_version_zero s2 d ext) ∧
    (_find_version_zero "SEQ_1140a" dirV0 ".mov" =
        some "/shots/SEQ/SEQ_1140/_vfx/SEQ_1140_comp_u0000_vfx.mov" ∨
     _find_version_zero "SEQ_1140a" dirV0 ".mov" =
        some "/shots/SEQ/SEQ_1140/_vfx/SEQ_1140_comp_w0000_vfx.mov") := by
  constructor
  · intro s1 s2 ext d h
    unfold _find_version_zero
    rw [h]
  · left
    decide

/-- Witness for C3: the two identities `SEQ_1140a` and `SEQ_1140`
share a base, so their version-zero lookups coincide. -/
theorem claim_C3_witness :
    _shot_base "SEQ_1140a" = _shot_base "SEQ_1140" ∧
    _find_version_zero "SEQ_1140a" dirV0 ".mov" =
      _find_version_zero "SEQ_1140" dirV0 ".mov" :=
  ⟨by decide, claim_C3.1 "SEQ_1140a" "SEQ_1140" ".mov" dirV0 (by decide)⟩

/-- A decimal digit is not a lowercase letter, so `[a-z]$` does not
fire on a digit-final identity. -/
theorem digit_not_lower {c : Char} (h : c.isDigit = true) : isLowerAZ c = false := by
  by_contra hne
  have hl : isLowerAZ c = true := by
    cases hx : isLowerAZ c with
    | true => rfl
    | false => exact absurd hx hne
  simp only [Char.isDigit, Bool.and_eq_true, decide_eq_true_eq] at h
  simp only [isLowerAZ, Bool.and_eq_true, decide_eq_true_eq] at hl
  have h2 : c.val.toNat ≤ 57 := h.2
  have h3 : 97 ≤ c.val.toNat := hl.1
  omega

/-- A string ending in a decimal digit is a fixed point of
`_shot_base`. -/
theorem shot_base_of_last_digit {s : String} {c : Char}
    (h : s.data.getLast? = some c) (hd : c.isDigit = true) : _shot_base s = s := by
  unfold _shot_base
  rw [h]
  show (if isLowerAZ c then String.mk s.data.dropLast else s) = s
  rw [digit_not_lower hd]
  rfl

/-- C4: `_shot_base` is idempotent on shot identities. -/
theorem claim_C4 (x : String) (h : IsShotIdentity x) :
    _shot_base (_shot_base x) = _shot_base x := by
  obtain ⟨seq, num, tail, hs, hnn, hdig, htail⟩ := h
  obtain ⟨d, hdl, hdd⟩ :
      ∃ d, num.getLast? = some d ∧ d.isDigit = true :=
    ⟨num.getLast hnn, List.getLast?_eq_getLast num hnn,
      hdig _ (List.getLast_mem hnn)⟩
  have hbase_eq : ∀ t : String, t.data = seq ++ '_' :: num → _shot_base t = t := by
    intro t ht
    refine shot_base_of_last_digit ?_ hdd
    rw [ht, List.append_cons, List.getLast?_append_of_ne_nil _ hnn]
    exact hdl
  rcases htail with rfl | ⟨c, hc, rfl⟩
  · have hx : x.data = seq ++ '_' :: num := by simpa using hs
    rw [hbase_eq x hx, hbase_eq x hx]
  · have hx : x.data = ((seq ++ ['_']) ++ num) ++ [c] := by
      rw [hs, List.append_cons]
      simp
    have hlast : x.data.getLast? = some c := by
      rw [hx]
      exact List.getLast?_concat _
    have hbx : _shot_base x = String.mk ((seq ++ ['_']) ++ num) := by
      unfold _shot_base
      rw [hlast]
      show (if isLowerAZ c then String.mk x.data.dropLast else x) = _
      rw [hc, if_pos rfl, hx, List.dropLast_concat]
    rw [hbx, hbase_eq (String.mk ((seq ++ ['_']) ++ num))
      (by rw [← List.append_cons])]

/-- Witness for C4 at the shot identity of section 8. -/
theorem claim_C4_witness :
    IsShotIdentity "SEQ_1140a" ∧
    _shot_base (_shot_base "SEQ_1140a") = _shot_base "SEQ_1140a" := by
  have hid : IsShotIdentity "SEQ_1140a" :=
    ⟨"SEQ".data, "1140".data, ['a'], by decide, by decide, by decide,
      Or.inr ⟨'a', by decide, rfl⟩⟩
  exact ⟨hid, claim_C4 "SEQ_1140a" hid⟩

/-- C7: a node whose filename fails the shot-identity pattern is
dropped from the batch before any resolution, and for the entries
that remain the no-cancellation loop produces the version-zero and
latest result lists element-for-element in input order (hence of the
same length), with absent markers where a lookup found nothing. -/
theorem claim_C7 :
    (∀ (nodes : List RNode) (r : Reg) (n : RNode),
        _extract_shot_name (pyBasename n.file) r = none →
        buildEntries (n :: nodes) r = buildEntries nodes r) ∧
    (∀ (fs : String → Option (List String)) (root sub ext : String)
        (entries : List (String × String × RNode)) (k : Nat),
        (mainLoop fs root sub ext (fun _ => false) entries k).1 =
          entries.map (fun e =>
            _find_version_zero e.1
              ⟨_build_vfx_path e.1 root sub, fs (_build_vfx_path e.1 root sub)⟩
              ext) ∧
        (mainLoop fs root sub ext (fun _ => false) entries k).2.1 =
          entries.map (fun e =>
            _find_latest_version e.1
              ⟨_build_vfx_path e.1 root sub, fs (_build_vfx_path e.1 root sub)⟩
              ext (some (pyBasename e.2.2.file)))) := by
  constructor
  · intro nodes r n h
    simp only [buildEntries, List.filterMap_cons, h]
  · intro fs root sub ext entries
    induction entries with
    | nil => intro k; exact ⟨rfl, rfl⟩
    | cons e rest ih =>
      intro k
      obtain ⟨shot, ver, node⟩ := e
      obtain ⟨h1, h2⟩ := ih (k + 1)
      constructor
      · rw [List.map_cons, ← h1]; rfl
      · rw [List.map_cons, ← h2]; rfl

/-- Witness for C7: an unparseable node is dropped, and a one-entry
batch yields one-element result lists. -/
theorem claim_C7_witness :
    _extract_shot_name (pyBasename (RNode.mk "S.mov").file) (Reg.chr 'X') = none ∧
    buildEntries [RNode.mk "S.mov"] (Reg.chr 'X') = buildEntries [] (Reg.chr 'X') ∧
    (mainLoop (fun _ => none) "/r" "_vfx" ".mov" (fun _ => false)
        [("S_1", "", RNode.mk "S_1.mov")] 0).1 =
      [("S_1", "", RNode.mk "S_1.mov")].map (fun e =>
        _find_version_zero e.1
          ⟨_build_vfx_path e.1 "/r" "_vfx",
           (fun _ => (none : Option (List String))) (_build_vfx_path e.1 "/r" "_vfx")⟩
          ".mov") :=
  ⟨by decide,
   claim_C7.1 [] (Reg.chr 'X') (RNode.mk "S.mov") (by decide),
   (claim_C7.2 (fun _ => none) "/r" "_vfx" ".mov" [("S_1", "", RNode.mk "S_1.mov")] 0).1⟩

/-- C8 counterexample: in a one-entry run that is never cancelled,
the trace is `poll, lookupV0, lookupLatest` — the latest-version
lookup is immediately preceded by the version-zero lookup, not by a
poll, so the loop does not poll before each of the two lookups. -/
theorem claim_C8_cex :
    pollBeforeEachLookup none
      (mainLoop (fun _ => none) "/r" "_vfx" ".mov" (fun _ => false)
        [("S_1", "", RNode.mk "S_1.mov")] 0).2.2.2 = false := by decide

/-- C8 amended: the loop polls exactly once per entry, before that
entry's version-zero lookup; the two lookups then run back to back
with no poll between them, and a poll answered `true` ends the run
immediately (no further lookup events follow it). -/
theorem claim_C8_amended :
    ∀ (fs : String → Option (List String)) (root sub ext : String)
      (cancel : Nat → Bool) (entries : List (String × String × RNode)) (k : Nat),
      wellFormedTrace (mainLoop fs root sub ext cancel entries k).2.2.2 = true := by
  intro fs root sub ext cancel entries
  induction entries with
  | nil => intro k; rfl
  | cons e rest ih =>
    intro k
    obtain ⟨shot, ver, node⟩ := e
    by_cases hc : cancel k = true
    · simp [mainLoop, hc, wellFormedTrace]
    · simp only [mainLoop, hc, Bool.false_eq_true, if_false, if_neg]
      simp [wellFormedTrace, ih (k + 1)]

/-! ### Matcher soundness and completeness (for C5) -/

theorem mat_sound :
    ∀ (fuel : Nat) (r : Reg) (s : List Char) (a : MRes),
      a ∈ mat fuel r s → s = a.1 ++ a.2.2 ∧ RMatch r a.1 a.2.1 := by
  intro fuel
  induction fuel with
  | zero => intro r s a ha; simp [mat] at ha
  | succ f ih =>
    intro r s a ha
    cases r with
    | eps =>
      simp only [mat, List.mem_singleton] at ha
      subst ha
      exact ⟨rfl, RMatch.eps⟩
    | chr c =>
      cases s with
      | nil => simp [mat] at ha
      | cons x xs =>
        simp only [mat] at ha
        by_cases hxc : x = c
        · rw [if_pos hxc] at ha
          simp only [List.mem_singleton] at ha
          subst ha
          subst hxc
          exact ⟨rfl, RMatch.chr x⟩
        · rw [if_neg hxc] at ha
          simp at ha
    | cls p =>
      cases s with
      | nil => simp [mat] at ha
      | cons x xs =>
        simp only [mat] at ha
        by_cases hp : p x = true
        · rw [if_pos hp] at ha
          simp only [List.mem_singleton] at ha
          subst ha
          exact ⟨rfl, RMatch.cls p x hp⟩
        · rw [if_neg hp] at ha
          simp at ha
    | alt r1 r2 =>
      simp only [mat, List.mem_append] at ha
      rcases ha with h | h
      · obtain ⟨hs, hm⟩ := ih r1 s a h
        exact ⟨hs, RMatch.altL hm⟩
      · obtain ⟨hs, hm⟩ := ih r2 s a h
        exact ⟨hs, RMatch.altR hm⟩
    | cat r1 r2 =>
      simp only [mat, List.mem_flatMap, List.mem_map] at ha
      obtain ⟨b, hb, c', hc', heq⟩ := ha
      obtain ⟨hs1, hm1⟩ := ih r1 s b hb
      obtain ⟨hs2, hm2⟩ := ih r2 b.2.2 c' hc'
      subst heq
      refine ⟨?_, RMatch.cat hm1 hm2⟩
      show s = (b.1 ++ c'.1) ++ c'.2.2
      rw [List.append_assoc, ← hs2, ← hs1]
    | group rg =>
      simp only [mat, List.mem_map] at ha
      obtain ⟨b, hb, heq⟩ := ha
      obtain ⟨hs, hm⟩ := ih rg s b hb
      subst heq
      exact ⟨hs, RMatch.group hm⟩
    | star rb =>
      simp only [mat, List.mem_append, List.mem_flatMap, List.mem_singleton] at ha
      rcases ha with ⟨b, hb, hin⟩ | hlast
      · by_cases hb1 : b.1 = []
        · rw [if_pos hb1] at hin
          simp at hin
        · rw [if_neg hb1] at hin
          simp only [List.mem_map] at hin
          obtain ⟨c', hc', heq⟩ := hin
          obtain ⟨hs1, hm1⟩ := ih rb s b hb
          obtain ⟨hs2, hm2⟩ := ih (.star rb) b.2.2 c' hc'
          subst heq
          refine ⟨?_, RMatch.starCons hm1 hm2⟩
          show s = (b.1 ++ c'.1) ++ c'.2.2
          rw [List.append_assoc, ← hs2, ← hs1]
      · subst hlast
        exact ⟨rfl, RMatch.starNil⟩

/-- A product of two positive naturals forces positive fuel. -/
theorem fuel_succ {a b fuel : Nat} (h : (a + 1) * (b + 1) ≤ fuel) :
    ∃ f, fuel = f + 1 := by
  have hp : 0 < (a + 1) * (b + 1) := Nat.mul_pos (Nat.succ_pos a) (Nat.succ_pos b)
  cases fuel with
  | zero => omega
  | succ f => exact ⟨f, rfl⟩

/-- Shrinking the consumed length (weakly) and the pattern size
(strictly) costs at most one unit of fuel. -/
theorem bound_step {a a' b b' fuel : Nat} (h : (a + 1) * (b + 1) ≤ fuel)
    (ha : a' ≤ a) (hb : b' + 1 ≤ b) : (a' + 1) * (b' + 1) + 1 ≤ fuel := by
  have h1 : (a' + 1) * (b' + 1) ≤ (a + 1) * b :=
    Nat.mul_le_mul (by omega) hb
  have h2 : (a + 1) * b + (a + 1) = (a + 1) * (b + 1) := by ring
  omega

/-- Shrinking the consumed length strictly at the same pattern size
costs at most one unit of fuel. -/
theorem bound_step2 {a a' b fuel : Nat} (h : (a + 1) * (b + 1) ≤ fuel)
    (ha : a' + 1 ≤ a) (hb : 1 ≤ b) : (a' + 1) * (b + 1) + 1 ≤ fuel := by
  have h1 : (a' + 1) * (b + 1) ≤ a * (b + 1) := Nat.mul_le_mul_right _ (by omega)
  have h2 : a * (b + 1) + (b + 1) = (a + 1) * (b + 1) := by ring
  omega

theorem rmatch_complete :
    ∀ {r : Reg} {c : List Char} {g : Option (List Char)}, RMatch r c g →
      ∀ (rest : List Char) (fuel : Nat), (c.length + 1) * (r.size + 1) ≤ fuel →
        ∃ g', (c, g', rest) ∈ mat fuel r (c ++ rest) := by
  intro r c g h
  induction h with
  | eps =>
    intro rest fuel hfuel
    obtain ⟨f, rfl⟩ := fuel_succ hfuel
    exact ⟨none, by simp [mat]⟩
  | chr c =>
    intro rest fuel hfuel
    obtain ⟨f, rfl⟩ := fuel_succ hfuel
    exact ⟨none, by simp [mat]⟩
  | cls p c hp =>
    intro rest fuel hfuel
    obtain ⟨f, rfl⟩ := fuel_succ hfuel
    exact ⟨none, by simp [mat, hp]⟩
  | altL h1 ih1 =>
    rename_i r1 r2 s g1
    intro rest fuel hfuel
    obtain ⟨f, rfl⟩ := fuel_succ hfuel
    simp only [Reg.size] at hfuel
    have hb : (s.length + 1) * (r1.size + 1) ≤ f := by
      have := @bound_step s.length s.length (r1.size + r2.size + 1) r1.size _
        hfuel (le_refl _) (by omega)
      omega
    obtain ⟨g', hg'⟩ := ih1 rest f hb
    exact ⟨g', by simp only [mat, List.mem_append]; exact Or.inl hg'⟩
  | altR h1 ih1 =>
    rename_i r1 r2 s g1
    intro rest fuel hfuel
    obtain ⟨f, rfl⟩ := fuel_succ hfuel
    simp only [Reg.size] at hfuel
    have hb : (s.length + 1) * (r2.size + 1) ≤ f := by
      have := @bound_step s.length s.length (r1.size + r2.size + 1) r2.size _
        hfuel (le_refl _) (by omega)
      omega
    obtain ⟨g', hg'⟩ := ih1 rest f hb
    exact ⟨g', by simp only [mat, List.mem_append]; exact Or.inr hg'⟩
  | cat h1 h2 ih1 ih2 =>
    rename_i r1 r2 s1 s2 g1 g2
    intro rest fuel hfuel
    obtain ⟨f, rfl⟩ := fuel_succ hfuel
    simp only [Reg.size, List.length_append] at hfuel
    have hb1 : (s1.length + 1) * (r1.size + 1) ≤ f := by
      have := @bound_step (s1.length + s2.length) s1.length
        (r1.size + r2.size + 1) r1.size _ hfuel (by omega) (by omega)
      omega
    have hb2 : (s2.length + 1) * (r2.size + 1) ≤ f := by
      have := @bound_step (s1.length + s2.length) s2.length
        (r1.size + r2.size + 1) r2.size _ hfuel (by omega) (by omega)
      omega
    obtain ⟨g1', hg1⟩ := ih1 (s2 ++ rest) f hb1
    obtain ⟨g2', hg2⟩ := ih2 rest f hb2
    refine ⟨g2' <|> g1', ?_⟩
    rw [List.append_assoc]
    simp only [mat]
    exact List.mem_flatMap.mpr
      ⟨(s1, g1', s2 ++ rest), hg1, List.mem_map.mpr ⟨(s2, g2', rest), hg2, rfl⟩⟩
  | starNil =>
    intro rest fuel hfuel
    obtain ⟨f, rfl⟩ := fuel_succ hfuel
    exact ⟨none, by simp [mat]⟩
  | starCons h1 h2 ih1 ih2 =>
    rename_i rb s1 s2 g1 g2
    intro rest fuel hfuel
    by_cases hs1 : s1 = []
    · subst hs1
      simpa using ih2 rest fuel (by simpa using hfuel)
    · obtain ⟨f, rfl⟩ := fuel_succ hfuel
      simp only [Reg.size, List.length_append] at hfuel
      have hs1len : 1 ≤ s1.length := by
        cases s1 with
        | nil => exact absurd rfl hs1
        | cons x xs => simp
      have hb1 : (s1.length + 1) * (rb.size + 1) ≤ f := by
        have := @bound_step (s1.length + s2.length) s1.length
          (rb.size + 1) rb.size _ hfuel (by omega) (by omega)
        omega
      have hb2 : (s2.length + 1) * ((Reg.star rb).size + 1) ≤ f := by
        simp only [Reg.size]
        have := @bound_step2 (s1.length + s2.length) s2.length
          (rb.size + 1) _ hfuel (by omega) (by omega)
        omega
      obtain ⟨g1', hg1⟩ := ih1 (s2 ++ rest) f hb1
      obtain ⟨g2', hg2⟩ := ih2 rest f hb2
      refine ⟨g2' <|> g1', ?_⟩
      rw [List.append_assoc]
      simp only [mat, List.mem_append]
      refine Or.inl (List.mem_flatMap.mpr ⟨(s1, g1', s2 ++ rest), hg1, ?_⟩)
      rw [if_neg (by simpa using hs1)]
      exact List.mem_map.mpr ⟨(s2, g2', rest), hg2, rfl⟩
  | group h1 ih1 =>
    rename_i rg s g1
    intro rest fuel hfuel
    obtain ⟨f, rfl⟩ := fuel_succ hfuel
    simp only [Reg.size] at hfuel
    have hb : (s.length + 1) * (rg.size + 1) ≤ f := by
      have := @bound_step s.length s.length (rg.size + 1) rg.size _
        hfuel (le_refl _) (by omega)
      omega
    obtain ⟨g', hg'⟩ := ih1 rest f hb
    refine ⟨some s, ?_⟩
    simp only [mat]
    exact List.mem_map.mpr ⟨(s, g', rest), hg', rfl⟩

/-- C5: for every pattern and filename, the stem (extension stripped)
has an anchored prefix match exactly when the matcher finds one; any
returned shot name is exactly the capture of the group in an anchored
match of the stem; and a non-matching stem yields absent.  The
function is total, so it never raises. -/
theorem claim_C5 (r : Reg) (filename : String) :
    ((∃ pre g rest, (splitextRoot filename).data = pre ++ rest ∧ RMatch r pre g) ↔
      reMatch r (splitextRoot filename) ≠ []) ∧
    (∀ gs : String, _extract_shot_name filename r = some gs →
      ∃ pre rest, (splitextRoot filename).data = pre ++ rest ∧
        RMatch r pre (some gs.data)) ∧
    ((¬ ∃ pre g rest, (splitextRoot filename).data = pre ++ rest ∧ RMatch r pre g) →
      _extract_shot_name filename r = none) := by
  refine ⟨⟨?_, ?_⟩, ?_, ?_⟩
  · rintro ⟨pre, g, rest, hsplit, hm⟩
    have hbound : (pre.length + 1) * (r.size + 1) ≤
        pyFuel r (splitextRoot filename).data := by
      unfold pyFuel
      refine Nat.mul_le_mul_right _ ?_
      have : pre.length ≤ (splitextRoot filename).data.length := by
        rw [hsplit, List.length_append]
        omega
      omega
    obtain ⟨g', hg'⟩ :=
      rmatch_complete hm rest (pyFuel r (splitextRoot filename).data) hbound
    rw [← hsplit] at hg'
    exact List.ne_nil_of_mem hg'
  · intro hne
    obtain ⟨x, t, hxt⟩ := List.exists_cons_of_ne_nil hne
    have hx : x ∈ reMatch r (splitextRoot filename) := by
      rw [hxt]
      exact List.mem_cons_self x t
    obtain ⟨hs, hm⟩ :=
      mat_sound (pyFuel r (splitextRoot filename).data) r
        (splitextRoot filename).data x hx
    exact ⟨x.1, x.2.1, x.2.2, hs, hm⟩
  · intro gs hgs
    unfold _extract_shot_name at hgs
    cases hr : reMatch r (splitextRoot filename) with
    | nil => rw [hr] at hgs; cases hgs
    | cons x t =>
      obtain ⟨c1, g1, r1⟩ := x
      rw [hr] at hgs
      cases g1 with
      | none => simp at hgs
      | some l =>
        have hgl : String.mk l = gs := by simpa using hgs
        have hx : (c1, some l, r1) ∈ reMatch r (splitextRoot filename) := by
          rw [hr]
          exact List.mem_cons_self _ _
        obtain ⟨hs, hm⟩ :=
          mat_sound (pyFuel r (splitextRoot filename).data) r
            (splitextRoot filename).data (c1, some l, r1) hx
        subst hgl
        exact ⟨c1, r1, hs, hm⟩
  · intro hno
    unfold _extract_shot_name
    cases hr : reMatch r (splitextRoot filename) with
    | nil => rfl
    | cons x t =>
      exfalso
      obtain ⟨c1, g1, r1⟩ := x
      have hx : (c1, g1, r1) ∈ reMatch r (splitextRoot filename) := by
        rw [hr]
        exact List.mem_cons_self _ _
      obtain ⟨hs, hm⟩ :=
        mat_sound (pyFuel r (splitextRoot filename).data) r
          (splitextRoot filename).data (c1, g1, r1) hx
      exact hno ⟨c1, g1, r1, hs, hm⟩

/-- Witness for C5: a one-character pattern with one group extracts
its capture from the stem of a concrete filename. -/
theorem claim_C5_witness :
    _extract_shot_name "S.mov" (Reg.group (Reg.chr 'S')) = some "S" ∧
    ∃ pre rest, (splitextRoot "S.mov").data = pre ++ rest ∧
      RMatch (Reg.group (Reg.chr 'S')) pre (some "S".data) :=
  ⟨by decide, (claim_C5 (Reg.group (Reg.chr 'S')) "S.mov").2.1 "S" (by decide)⟩
